import Mathlib

/-!
Verification of the mixfix parsing / pretty-printing / nominal-binding
library (src/syntax.py, src/core.py) against its specification.

The Python source is shallowly embedded below.  Pure functions become Lean
functions; the process-wide fresh-name counter is threaded explicitly as a
`Nat` state; Python exceptions become `Option`/`none`.  The precedence
partial order (`poset.py`, a repository module not included under src/) and
the ambiguous-derivation engine (external collaborator per spec section 6)
are modelled from the specification's words and are marked as such.
-/

/-- Names, from `class Name` in src/syntax.py: a pretty tag `x` and an
optional natural disambiguator `n`.  Equality is structural on both. -/
structure Name where
  x : String
  n : Option Nat
deriving DecidableEq, Repr

/-- `Name.__str__`: `self.x if self.n is None else f'{self.x}@{self.n}'`. -/
def Name.str (a : Name) : String :=
  a.x ++ (match a.n with
  | none => ""
  | some k => "@" ++ toString k)

/-- Terms of the example languages built with the `@mixfix` decorator in
src/syntax.py: variable occurrences `V`, binding forms `F`, and the mixfix
kinds declared in examples 1 and 2 (`Top`, `Times`, `Plus`, `Pow`,
`Forall`, `Exists`, `Eq`).  Each mixfix kind is one closed case; its field
list is fixed by its declaration. -/
inductive Tm where
  | V (x : Name)
  | F (x : Name) (e : Tm)
  | Top
  | Times (p q : Tm)
  | Plus (p q : Tm)
  | Pow (p q : Tm)
  | Forall (xp : Tm)
  | Exists (xp : Tm)
  | Eq (m n : Tm)
deriving DecidableEq, Repr

/-- A string literal of a mixfix declaration, from `class Str`: a parsing
spelling `s` plus mode-specific spellings `kvs`. -/
structure StrLit where
  s : String
  kvs : List (String × String)
deriving DecidableEq, Repr

/-- A printing mode: `None` (the default/parsing mode) or a named mode such
as `'pretty'`. -/
def Mode := Option String
deriving DecidableEq

/-- `Str.in_mode`: the spelling for a mode, defaulting to the parsing
spelling. -/
def StrLit.inMode (sl : StrLit) (mode : Mode) : String :=
  match mode with
  | none => sl.s
  | some m => ((sl.kvs.filter (fun kv => kv.1 = m)).head?.map (fun kv => kv.2)).getD sl.s

/-- Modelled from the spec: the precedence partial order provider
(`poset.py` is a repository module not included under src/).  Spec section
4.2 and section 6: `add(lo, hi)` records `lo ≤ hi` with transitive
closure, `add_bot`/`add_top` declare bottom/top elements, `le` is a
decidable query.  `posetReach edges fuel a b` decides whether `b` is
reachable from `a` through declared edges; a path needs each edge at most
once, so fuel `edges.length` suffices. -/
def posetReach (edges : List (String × String)) : Nat → String → String → Bool
  | 0, a, b => a == b
  | fuel+1, a, b => a == b || edges.any (fun e => e.1 == a && posetReach edges fuel e.2 b)

/-- Modelled from the spec: the `le` query of the partial order: reflexive,
bottom below everything, everything below a top, plus transitive closure of
the declared inequalities. -/
def posetLe (edges : List (String × String)) (bots tops : List String) (a b : String) : Bool :=
  a == b || bots.contains a || tops.contains b || posetReach edges edges.length a b

/-- The inequalities declared in example 1 of src/syntax.py (lines
440-468): `prec_ge(p, q)` records `q ≤ p` in the global order.  `Top` and
`Top.s` are declared as tops. -/
def edges1 : List (String × String) :=
  [("Times.times", "Times"),
   ("Plus.plus", "Plus"),
   ("Plus", "Times"), ("Plus.p", "Times.q"), ("Plus.q", "Times.q"),
   ("Pow.to", "Pow"),
   ("Pow", "Plus"), ("Pow.p", "Plus.q")]

/-- The additional inequalities declared in example 2 (lines 529-544). -/
def edges2 : List (String × String) :=
  edges1 ++
  [("Forall.xp", "Exists.xp"), ("Exists.xp", "Forall.xp"),
   ("Exists.xp", "Eq.n"),
   ("Exists.xp", "Times.q")]

/-- The global precedence order as of the end of example 1. -/
def le1 : String → String → Bool :=
  posetLe edges1 ["bot"] ["top", "Top", "Top.s"]

/-- The global precedence order as of the end of example 2. -/
def le2 : String → String → Bool :=
  posetLe edges2 ["bot"] ["top", "Top", "Top.s"]

/-- `parens` from src/syntax.py line 3, the default bracketer
(`c.bracket = lambda mode, s: parens(s)`). -/
def defaultBracket (_mode : Mode) (s : String) : String :=
  "(" ++ s ++ ")"

/-- One entry of a mixfix declaration's annotation list as consumed by
`to_str`: a string literal, or a sub-term field (represented by its
renderer, already applied to the mode, awaiting the left/right cursor
bounds). -/
inductive MEntry where
  | lit (sl : StrLit)
  | sub (render : String → String → String)

/-- The item loop of `to_str` (src/syntax.py lines 274-280): walk the
annotation entries, pairing entry `i` with left cursor `precs[i]` and
right cursor `precs[i+1]`, concatenating literal spellings and sub-term
renderings. -/
def mixfixGo (mode : Mode) : List String → List (String × MEntry) → String
  | lp :: rest, (_k, e) :: es =>
    (match e with
     | .lit sl => sl.inMode mode
     | .sub f => f lp (rest.headD "bot")) ++ mixfixGo mode rest es
  | _, _ => ""

/-- `to_str` from src/syntax.py lines 260-281, generalized over the kind's
name and annotation list.  `inner_l` is the kind's entry cursor (its name);
`inner_r` is the exit cursor of the last annotation.  Brackets are omitted
iff `le left_prec inner_l && le right_prec inner_r`; the cursor-name list
`precs` starts with the entry cursor (or `bot` when bracketing) followed by
each annotation's exit cursor, and when bracketing its last element is
replaced by `bot`. -/
def mixfixStr (le : String → String → Bool) (bracket : Mode → String → String)
    (name : String) (annots : List (String × MEntry))
    (mode : Mode) (left_prec right_prec : String) : String :=
  let makePrec : String → String := fun f => if f = name then name else name ++ "." ++ f
  let rightInner := makePrec (((annots.getLast?).map (fun kv => kv.1)).getD name)
  let bracketing := !(le left_prec name && le right_prec rightInner)
  let precs0 : List String := (if bracketing then "bot" else name) :: annots.map (fun kv => makePrec kv.1)
  let precs := if bracketing then precs0.dropLast ++ ["bot"] else precs0
  let res := mixfixGo mode precs annots
  if bracketing then bracket mode res else res

/-- The renderer: `V.str` returns the name's spelling ignoring the bounds;
`F.str` (src/syntax.py lines 416-418) prints `name`, a dot (condensed in
default mode), then the body with its left bound reset to `bot` and the
right bound threaded through; every mixfix kind renders through
`mixfixStr` with its declared annotation list and spellings. -/
def Tm.str (le : String → String → Bool) : Tm → Mode → String → String → String
  | .V x, _, _, _ => x.str
  | .F x e, mode, _, right_prec =>
    x.str ++ (if mode = none then "." else ". ") ++ Tm.str le e mode "bot" right_prec
  | .Top, mode, l, r =>
    mixfixStr le defaultBracket "Top" [("s", .lit ⟨"1", []⟩)] mode l r
  | .Times p q, mode, l, r =>
    mixfixStr le defaultBracket "Times"
      [("p", .sub (fun a b => Tm.str le p mode a b)),
       ("times", .lit ⟨"*", [("pretty", " * ")]⟩),
       ("q", .sub (fun a b => Tm.str le q mode a b))] mode l r
  | .Plus p q, mode, l, r =>
    mixfixStr le defaultBracket "Plus"
      [("p", .sub (fun a b => Tm.str le p mode a b)),
       ("plus", .lit ⟨"+", [("pretty", " + ")]⟩),
       ("q", .sub (fun a b => Tm.str le q mode a b))] mode l r
  | .Pow p q, mode, l, r =>
    mixfixStr le defaultBracket "Pow"
      [("p", .sub (fun a b => Tm.str le p mode a b)),
       ("to", .lit ⟨"->", [("pretty", " -> ")]⟩),
       ("q", .sub (fun a b => Tm.str le q mode a b))] mode l r
  | .Forall xp, mode, l, r =>
    mixfixStr le defaultBracket "Forall"
      [("forall", .lit ⟨"forall ", [("pretty", "∀ ")]⟩),
       ("xp", .sub (fun a b => Tm.str le xp mode a b))] mode l r
  | .Exists xp, mode, l, r =>
    mixfixStr le defaultBracket "Exists"
      [("forall", .lit ⟨"exists ", [("pretty", "∃ ")]⟩),
       ("xp", .sub (fun a b => Tm.str le xp mode a b))] mode l r
  | .Eq m n, mode, l, r =>
    mixfixStr le defaultBracket "Eq"
      [("m", .sub (fun a b => Tm.str le m mode a b)),
       ("eq", .lit ⟨"=", [("pretty", " = ")]⟩),
       ("n", .sub (fun a b => Tm.str le n mode a b))] mode l r

/-- Whether a character is a parenthesis (`s[i] in '()'`). -/
def isPar (c : Char) : Bool := c = '(' || c = ')'

/-- The two-pointer scan of `reducible_to` (src/syntax.py lines 115-126).
Each loop iteration returns or advances `i`, so the Python loop always
terminates; reading `s[i]` with `i = len(s)` raises `IndexError`, modelled
as `none`. -/
def redLoop : List Char → List Char → Option Bool
  | _, [] => some true
  | [], _ :: _ => none
  | c :: s, d :: t =>
    if c = d then redLoop s t
    else if isPar c then redLoop s (d :: t)
    else some false

/-- `reducible_to` from src/syntax.py lines 109-126: decides whether `t` is
a version of `s` with extraneous parentheses removed.  First the early
returns on `s == t` and on the character-set tests
(`set(s).symmetric_difference(set(t)) - set('()')` and
`(set(s) - set(t)) - set('()')`), then the two-pointer scan. -/
def reducible_to (s t : List Char) : Option Bool :=
  if s = t then some true
  else if s.any (fun c => !t.contains c && !isPar c) || t.any (fun c => !s.contains c && !isPar c) then
    some false
  else if s.any (fun c => !t.contains c && !isPar c) then some false
  else redLoop s t

/-- Second definition, following the spec's words (section 4.5): `t` is
obtainable from `s` by deleting a subsequence consisting solely of
parenthesis characters — each character of `s` is either kept (matching the
next character of `t`) or deleted, and only parentheses may be deleted. -/
def specReduces : List Char → List Char → Bool
  | [], [] => true
  | [], _ :: _ => false
  | c :: s, t =>
    (match t with
     | d :: t2 => if c = d then specReduces s t2 else false
     | [] => false)
    || (if isPar c then specReduces (s) t else false)

/-- `remove_whitespace` (src/syntax.py line 135): drop all whitespace. -/
def strip (s : List Char) : List Char := s.filter (fun c => !c.isWhitespace)

/-- A character lark's `CNAME` identifiers may contain. -/
def isIdChar (c : Char) : Bool := c.isAlpha || c.isDigit || c = '_'

/-- Whether a string is a valid `CNAME` identifier token. -/
def identOk : List Char → Bool
  | [] => false
  | c :: rest => (c.isAlpha || c = '_') && rest.all isIdChar

/-- All ways to split `s` as `left ++ lit ++ right`. -/
def splitsOn (lit : List Char) (s : List Char) : List (List Char × List Char) :=
  (List.range (s.length + 1)).filterMap (fun i =>
    let rest := s.drop i
    if lit.isPrefixOf rest then some (s.take i, rest.drop lit.length) else none)

/-- The binary productions registered as of the end of example 1 of
src/syntax.py, each with its parsing spelling and its transformer: `term *
term → Times`, `term + term → Plus`, `term -> term → Pow`, and the binding
form `term . term → F` (line 426), whose transformer `F.transform` rejects
a left component that is not a bare variable occurrence. -/
def prods1 : List ((Tm → Tm → List Tm) × List Char) :=
  [(fun a b => [Tm.Times a b], ['*']),
   (fun a b => [Tm.Plus a b], ['+']),
   (fun a b => [Tm.Pow a b], ['-', '>']),
   (fun a b => match a with
     | Tm.V x => [Tm.F x b]
     | _ => [], ['.'])]

/-- Modelled from the spec: the external ambiguous-derivation provider
(lark, wrapped in `make_parser`; spec sections 4.4-4.5 and 6: the grammar
has one shared nonterminal with one alternative per declared kind, a
parenthesized-term alternative, and an identifier alternative built into a
variable occurrence over a `Name` with no disambiguator; `deriveAll` must
enumerate all distinct derivations).  `derive1 fuel s` enumerates every
term whose derivation yields the whitespace-free string `s` under the
grammar state at the end of example 1; every recursive call is on a
strictly shorter string, so fuel `s.length + 1` is exhaustive.  The
number/quoted-string atoms are omitted: no string of any claim contains
them, and their parse trees never survive disambiguation. -/
def derive1 : Nat → List Char → List Tm
  | 0, _ => []
  | fuel+1, s =>
    (if s = ['1'] then [Tm.Top] else [])
    ++ (if identOk s then [Tm.V ⟨⟨s⟩, none⟩] else [])
    ++ (match s with
        | '(' :: rest =>
          if rest.getLast? = some ')' then derive1 fuel rest.dropLast else []
        | _ => [])
    ++ prods1.foldr (fun op acc =>
         (splitsOn op.2 s).foldr (fun pr acc2 =>
           (derive1 fuel pr.1).foldr (fun a acc3 =>
             (derive1 fuel pr.2).foldr (fun b acc4 => op.1 a b ++ acc4) acc3) acc2) acc) []

/-- `Parser.parses` (src/syntax.py lines 101-140): enumerate the
deduplicated candidate terms for the input, keep those whose canonical
(default-mode) rendering reduces to the whitespace-stripped input.  A
candidate whose `reducible_to` check reads out of bounds raises
`IndexError`, aborting the whole call: modelled as `none`. -/
def parses1 (s : List Char) : Option (List Tm) :=
  let lhs := strip s
  (derive1 (lhs.length + 1) lhs).dedup.foldr
    (fun v acc =>
      match acc, reducible_to lhs (strip (Tm.str le1 v none "bot" "bot").data) with
      | none, _ => none
      | _, none => none
      | some l, some true => some (v :: l)
      | some l, some false => some l)
    (some [])

/-- The two parse-error kinds of spec section 7: `NoParse` and
`AmbiguousParse` carrying the candidate list. -/
inductive ParseErr where
  | noParse
  | ambiguous (candidates : List Tm)
deriving DecidableEq, Repr

/-- `Parser.parse` (src/syntax.py lines 141-149): the unique survivor of
`parses`, `ValueError('No parse ...')` on zero survivors,
`ValueError('Ambiguous parse ...')` with the survivor list on more than
one.  An exception escaping `parses` itself propagates (`none`). -/
def parse1 (s : List Char) : Option (Except ParseErr Tm) :=
  (parses1 s).map (fun l =>
    match l with
    | [] => Except.error ParseErr.noParse
    | [v] => Except.ok v
    | vs => Except.error (ParseErr.ambiguous vs))

instance : DecidableEq (Except ParseErr Tm) := fun a b =>
  match a, b with
  | .ok x, .ok y =>
    if h : x = y then isTrue (by rw [h]) else isFalse (by intro hh; cases hh; exact h rfl)
  | .error x, .error y =>
    if h : x = y then isTrue (by rw [h]) else isFalse (by intro hh; cases hh; exact h rfl)
  | .ok _, .error _ => isFalse (by intro hh; cases hh)
  | .error _, .ok _ => isFalse (by intro hh; cases hh)

/-- Whether a term is an instance of a `@mixfix`-declared kind (neither a
variable occurrence nor a binding form). -/
def Tm.isMixfixNode : Tm → Bool
  | .V _ => false
  | .F _ _ => false
  | _ => true

/-- The declared kind of a term, as a constructor index; two terms are
instances of the same Python class iff their indices agree. -/
def Tm.kindIdx : Tm → Nat
  | .V _ => 0
  | .F _ _ => 1
  | .Top => 2
  | .Times _ _ => 3
  | .Plus _ _ => 4
  | .Pow _ _ => 5
  | .Forall _ => 6
  | .Exists _ => 7
  | .Eq _ _ => 8

/-- Lookup in an association list keyed by `Name`.  Python dict update
`renaming | {x: y}` makes the right operand win, modelled by prepending
the new pair so it is found first. -/
def lookupN {α : Type} : List (Name × α) → Name → Option α
  | [], _ => none
  | (k, v) :: rest, x => if k = x then some v else lookupN rest x

/-- `fvs` (src/syntax.py lines 290-291, 348, 406-407): free names.  `V`
contributes its name, `F` subtracts its bound name from the body's free
names, a mixfix node takes the union over its sub-term fields. -/
def Tm.fvs : Tm → Finset Name
  | .V x => {x}
  | .F x e => e.fvs \ {x}
  | .Top => ∅
  | .Times p q => p.fvs ∪ q.fvs
  | .Plus p q => p.fvs ∪ q.fvs
  | .Pow p q => p.fvs ∪ q.fvs
  | .Forall xp => xp.fvs
  | .Exists xp => xp.fvs
  | .Eq m n => m.fvs ∪ n.fvs

/-- `subst` (src/syntax.py lines 286, 346, 391-394) with the process-wide
fresh-name counter threaded explicitly: `V` is replaced when its name is in
the substitution; `F` always freshens its bound name (`x.fresh()` yields
`Name(x.x, next(global_nats))`), extends the substitution with
`{x: V(x')}`, and descends; a mixfix node maps over its fields in
declaration order (the order in which the Python generator consumes the
counter). -/
def Tm.subst : Tm → List (Name × Tm) → Nat → Tm × Nat
  | .V x, σ, c => ((lookupN σ x).getD (.V x), c)
  | .F x e, σ, c =>
    let x2 : Name := ⟨x.x, some c⟩
    let r := Tm.subst e ((x, .V x2) :: σ) (c + 1)
    (.F x2 r.1, r.2)
  | .Top, _, c => (.Top, c)
  | .Times p q, σ, c =>
    let rp := Tm.subst p σ c
    let rq := Tm.subst q σ rp.2
    (.Times rp.1 rq.1, rq.2)
  | .Plus p q, σ, c =>
    let rp := Tm.subst p σ c
    let rq := Tm.subst q σ rp.2
    (.Plus rp.1 rq.1, rq.2)
  | .Pow p q, σ, c =>
    let rp := Tm.subst p σ c
    let rq := Tm.subst q σ rp.2
    (.Pow rp.1 rq.1, rq.2)
  | .Forall xp, σ, c =>
    let r := Tm.subst xp σ c
    (.Forall r.1, r.2)
  | .Exists xp, σ, c =>
    let r := Tm.subst xp σ c
    (.Exists r.1, r.2)
  | .Eq m n, σ, c =>
    let rm := Tm.subst m σ c
    let rn := Tm.subst n σ rm.2
    (.Eq rm.1 rn.1, rn.2)

/-- Sequencing of Python's short-circuiting `all(...)` over field
comparisons: a raised exception is `none`, and after a `False` the
generator is not advanced further. -/
def eqAnd : Option Bool → (Unit → Option Bool) → Option Bool
  | none, _ => none
  | some false, _ => some false
  | some true, k => k ()

/-- `__eq__` with an accumulated renaming (src/syntax.py lines 258-259,
342, 381-382).  `V.__eq__` compares the (possibly renamed) name against
`other.x` — which exists when `other` is a `V` or an `F`, and raises
`AttributeError` (`none`) when `other` is a mixfix node.  `F.__eq__`
returns `False` unless `other` is an `F`, then compares bodies under the
extended renaming.  A mixfix `__eq__` returns `False` unless the types
match, then compares fields pointwise under the same renaming. -/
def eqTm : Tm → Tm → List (Name × Name) → Option Bool
  | .V x, other, ren =>
    let lhs := (lookupN ren x).getD x
    (match other with
     | .V y => some (decide (lhs = y))
     | .F y _ => some (decide (lhs = y))
     | _ => none)
  | .F x e, other, ren =>
    (match other with
     | .F y e2 => eqTm e e2 ((x, y) :: ren)
     | _ => some false)
  | .Top, other, _ =>
    (match other with
     | .Top => some true
     | _ => some false)
  | .Times p q, other, ren =>
    (match other with
     | .Times p2 q2 => eqAnd (eqTm p p2 ren) (fun _ => eqTm q q2 ren)
     | _ => some false)
  | .Plus p q, other, ren =>
    (match other with
     | .Plus p2 q2 => eqAnd (eqTm p p2 ren) (fun _ => eqTm q q2 ren)
     | _ => some false)
  | .Pow p q, other, ren =>
    (match other with
     | .Pow p2 q2 => eqAnd (eqTm p p2 ren) (fun _ => eqTm q q2 ren)
     | _ => some false)
  | .Forall xp, other, ren =>
    (match other with
     | .Forall xp2 => eqTm xp xp2 ren
     | _ => some false)
  | .Exists xp, other, ren =>
    (match other with
     | .Exists xp2 => eqTm xp xp2 ren
     | _ => some false)
  | .Eq m n, other, ren =>
    (match other with
     | .Eq m2 n2 => eqAnd (eqTm m m2 ren) (fun _ => eqTm n n2 ren)
     | _ => some false)

/-- The search of `F.simple_names` (src/syntax.py lines 399-402):
`next(x.with_n(n) for n in nats() if ...)` walks `{0, 1, 2, ...}` for the
first satisfying disambiguator.  Among `used.card + 1` candidates at least
one is outside `used`, so fuel `used.card + 1` makes the bounded search
agree with the unbounded Python one. -/
def searchFrom (p : Nat → Bool) : Nat → Nat → Option Nat
  | _, 0 => none
  | k, fuel+1 => if p k then some k else searchFrom p (k+1) fuel

/-- The name chosen by a binder during `simple_names`: the tag with no
disambiguator if free, else the tag with the least free disambiguator. -/
def pickName (tag : String) (used : Finset Name) : Name :=
  if (⟨tag, none⟩ : Name) ∉ used then ⟨tag, none⟩
  else
    match searchFrom (fun k => !decide ((⟨tag, some k⟩ : Name) ∈ used)) 0 (used.card + 1) with
    | some k => ⟨tag, some k⟩
    | none => ⟨tag, none⟩

/-- `simple_names` (src/syntax.py lines 287-289, 347, 396-404).  The
Python `in_use` argument is one shared mutable set: a mixfix node passes
the same set to each field in order, and `F` updates it in place with
`in_use |= self.fvs()` before choosing the display name — so the update is
visible to later sibling fields.  The body is recursed into with the fresh
copy `in_use | {x}`, whose updates are not visible outside.  Modelled by
returning the set alongside the rebuilt term. -/
def Tm.simple_names : Tm → List (Name × Name) → Finset Name → Tm × Finset Name
  | .V x, ren, used => (((lookupN ren x).map Tm.V).getD (.V x), used)
  | .F x e, ren, used =>
    let used1 := used ∪ (Tm.F x e).fvs
    let x2 := pickName x.x used1
    let r := Tm.simple_names e ((x, x2) :: ren) (insert x2 used1)
    (.F x2 r.1, used1)
  | .Top, _, used => (.Top, used)
  | .Times p q, ren, used =>
    let rp := Tm.simple_names p ren used
    let rq := Tm.simple_names q ren rp.2
    (.Times rp.1 rq.1, rq.2)
  | .Plus p q, ren, used =>
    let rp := Tm.simple_names p ren used
    let rq := Tm.simple_names q ren rp.2
    (.Plus rp.1 rq.1, rq.2)
  | .Pow p q, ren, used =>
    let rp := Tm.simple_names p ren used
    let rq := Tm.simple_names q ren rp.2
    (.Pow rp.1 rq.1, rq.2)
  | .Forall xp, ren, used =>
    let r := Tm.simple_names xp ren used
    (.Forall r.1, r.2)
  | .Exists xp, ren, used =>
    let r := Tm.simple_names xp ren used
    (.Exists r.1, r.2)
  | .Eq m n, ren, used =>
    let rm := Tm.simple_names m ren used
    let rn := Tm.simple_names n ren rm.2
    (.Eq rm.1 rn.1, rn.2)

/-- Second definition, following the spec's words (section 4.1 /
claim C8): the reserved set reaching a binder is its ancestors' reserved
set united with this binder's free names — siblings do not contribute.  A
mixfix node therefore passes the same incoming reserved set to every
field. -/
def specSimpleNames : Tm → List (Name × Name) → Finset Name → Tm
  | .V x, ren, _ => ((lookupN ren x).map Tm.V).getD (.V x)
  | .F x e, ren, used =>
    let used1 := used ∪ (Tm.F x e).fvs
    let x2 := pickName x.x used1
    .F x2 (specSimpleNames e ((x, x2) :: ren) (insert x2 used1))
  | .Top, _, _ => .Top
  | .Times p q, ren, used => .Times (specSimpleNames p ren used) (specSimpleNames q ren used)
  | .Plus p q, ren, used => .Plus (specSimpleNames p ren used) (specSimpleNames q ren used)
  | .Pow p q, ren, used => .Pow (specSimpleNames p ren used) (specSimpleNames q ren used)
  | .Forall xp, ren, used => .Forall (specSimpleNames xp ren used)
  | .Exists xp, ren, used => .Exists (specSimpleNames xp ren used)
  | .Eq m n, ren, used => .Eq (specSimpleNames m ren used) (specSimpleNames n ren used)

/-- A name's disambiguator is either absent or below the counter bound
`c`.  The process-wide counter only grows, so every name ever created is
bounded by every later counter value. -/
def Name.bounded (c : Nat) (a : Name) : Bool :=
  match a.n with
  | none => true
  | some k => k < c

/-- Every name occurring in the term (free, bound, or binding position) is
bounded by `c`. -/
def Tm.bounded (c : Nat) : Tm → Bool
  | .V x => x.bounded c
  | .F x e => x.bounded c && e.bounded c
  | .Top => true
  | .Times p q => p.bounded c && q.bounded c
  | .Plus p q => p.bounded c && q.bounded c
  | .Pow p q => p.bounded c && q.bounded c
  | .Forall xp => xp.bounded c
  | .Exists xp => xp.bounded c
  | .Eq m n => m.bounded c && n.bounded c

/-- Second definition, following the words of spec section 4.3 / claim C2:
if `le inLeft entry && le inRight exitLast` then no bracketing, each field
rendered with incoming bounds (exit of the previous annotation — or the
entry token for the first — and its own exit token); otherwise every field
is rendered with incoming bounds reset to bottom and the concatenation is
wrapped in the kind's bracketer.  `V` and `F` render as in the code. -/
def specRenderC2 (le : String → String → Bool) : Tm → Mode → String → String → String
  | .V x, _, _, _ => x.str
  | .F x e, mode, _, r =>
    x.str ++ (if mode = none then "." else ". ") ++ specRenderC2 le e mode "bot" r
  | .Top, mode, l, r =>
    if le l "Top" && le r "Top.s" then (StrLit.mk "1" []).inMode mode
    else defaultBracket mode ((StrLit.mk "1" []).inMode mode)
  | .Times p q, mode, l, r =>
    let lit := (StrLit.mk "*" [("pretty", " * ")]).inMode mode
    if le l "Times" && le r "Times.q" then
      specRenderC2 le p mode "Times" "Times.p" ++ lit ++ specRenderC2 le q mode "Times.times" "Times.q"
    else
      defaultBracket mode (specRenderC2 le p mode "bot" "bot" ++ lit ++ specRenderC2 le q mode "bot" "bot")
  | .Plus p q, mode, l, r =>
    let lit := (StrLit.mk "+" [("pretty", " + ")]).inMode mode
    if le l "Plus" && le r "Plus.q" then
      specRenderC2 le p mode "Plus" "Plus.p" ++ lit ++ specRenderC2 le q mode "Plus.plus" "Plus.q"
    else
      defaultBracket mode (specRenderC2 le p mode "bot" "bot" ++ lit ++ specRenderC2 le q mode "bot" "bot")
  | .Pow p q, mode, l, r =>
    let lit := (StrLit.mk "->" [("pretty", " -> ")]).inMode mode
    if le l "Pow" && le r "Pow.q" then
      specRenderC2 le p mode "Pow" "Pow.p" ++ lit ++ specRenderC2 le q mode "Pow.to" "Pow.q"
    else
      defaultBracket mode (specRenderC2 le p mode "bot" "bot" ++ lit ++ specRenderC2 le q mode "bot" "bot")
  | .Forall xp, mode, l, r =>
    let lit := (StrLit.mk "forall " [("pretty", "∀ ")]).inMode mode
    if le l "Forall" && le r "Forall.xp" then
      lit ++ specRenderC2 le xp mode "Forall.forall" "Forall.xp"
    else
      defaultBracket mode (lit ++ specRenderC2 le xp mode "bot" "bot")
  | .Exists xp, mode, l, r =>
    let lit := (StrLit.mk "exists " [("pretty", "∃ ")]).inMode mode
    if le l "Exists" && le r "Exists.xp" then
      lit ++ specRenderC2 le xp mode "Exists.forall" "Exists.xp"
    else
      defaultBracket mode (lit ++ specRenderC2 le xp mode "bot" "bot")
  | .Eq m n, mode, l, r =>
    let lit := (StrLit.mk "=" [("pretty", " = ")]).inMode mode
    if le l "Eq" && le r "Eq.n" then
      specRenderC2 le m mode "Eq" "Eq.m" ++ lit ++ specRenderC2 le n mode "Eq.eq" "Eq.n"
    else
      defaultBracket mode (specRenderC2 le m mode "bot" "bot" ++ lit ++ specRenderC2 le n mode "bot" "bot")

/-- The amended description of the bracketing case, as the code actually
behaves: when bracketing, only the outermost two cursor bounds are reset
to bottom — the first annotation's left bound and the last annotation's
right bound — while the bounds between adjacent fields are kept (exit of
the preceding annotation, own exit token).  The unbracketed case is
unchanged from the spec's description. -/
def amendRender (le : String → String → Bool) : Tm → Mode → String → String → String
  | .V x, _, _, _ => x.str
  | .F x e, mode, _, r =>
    x.str ++ (if mode = none then "." else ". ") ++ amendRender le e mode "bot" r
  | .Top, mode, l, r =>
    if le l "Top" && le r "Top.s" then (StrLit.mk "1" []).inMode mode
    else defaultBracket mode ((StrLit.mk "1" []).inMode mode)
  | .Times p q, mode, l, r =>
    let lit := (StrLit.mk "*" [("pretty", " * ")]).inMode mode
    if le l "Times" && le r "Times.q" then
      amendRender le p mode "Times" "Times.p" ++ lit ++ amendRender le q mode "Times.times" "Times.q"
    else
      defaultBracket mode (amendRender le p mode "bot" "Times.p" ++ lit ++ amendRender le q mode "Times.times" "bot")
  | .Plus p q, mode, l, r =>
    let lit := (StrLit.mk "+" [("pretty", " + ")]).inMode mode
    if le l "Plus" && le r "Plus.q" then
      amendRender le p mode "Plus" "Plus.p" ++ lit ++ amendRender le q mode "Plus.plus" "Plus.q"
    else
      defaultBracket mode (amendRender le p mode "bot" "Plus.p" ++ lit ++ amendRender le q mode "Plus.plus" "bot")
  | .Pow p q, mode, l, r =>
    let lit := (StrLit.mk "->" [("pretty", " -> ")]).inMode mode
    if le l "Pow" && le r "Pow.q" then
      amendRender le p mode "Pow" "Pow.p" ++ lit ++ amendRender le q mode "Pow.to" "Pow.q"
    else
      defaultBracket mode (amendRender le p mode "bot" "Pow.p" ++ lit ++ amendRender le q mode "Pow.to" "bot")
  | .Forall xp, mode, l, r =>
    let lit := (StrLit.mk "forall " [("pretty", "∀ ")]).inMode mode
    if le l "Forall" && le r "Forall.xp" then
      lit ++ amendRender le xp mode "Forall.forall" "Forall.xp"
    else
      defaultBracket mode (lit ++ amendRender le xp mode "Forall.forall" "bot")
  | .Exists xp, mode, l, r =>
    let lit := (StrLit.mk "exists " [("pretty", "∃ ")]).inMode mode
    if le l "Exists" && le r "Exists.xp" then
      lit ++ amendRender le xp mode "Exists.forall" "Exists.xp"
    else
      defaultBracket mode (lit ++ amendRender le xp mode "Exists.forall" "bot")
  | .Eq m n, mode, l, r =>
    let lit := (StrLit.mk "=" [("pretty", " = ")]).inMode mode
    if le l "Eq" && le r "Eq.n" then
      amendRender le m mode "Eq" "Eq.m" ++ lit ++ amendRender le n mode "Eq.eq" "Eq.n"
    else
      defaultBracket mode (amendRender le m mode "bot" "Eq.m" ++ lit ++ amendRender le n mode "Eq.eq" "bot")

/-- The effect of a substitution on one free name: the free names of its
replacement when the substitution targets it, else the name itself. -/
def substImage (σ : List (Name × Tm)) (z : Name) : Finset Name :=
  match lookupN σ z with
  | some r => r.fvs
  | none => {z}

/-- The non-parenthesis characters of a string, in order: the character
sequence preserved by deleting a subsequence of parentheses. -/
def nonPar (s : List Char) : List Char := s.filter (fun c => !isPar c)

/-- The characters of a string that are neither parentheses nor whitespace:
the sequence shared by an input and the canonical rendering of any of its
candidate parses. -/
def core (s : List Char) : List Char := s.filter (fun c => !isPar c && !c.isWhitespace)

/-- The default-mode token spelling of a term: the concatenation of its
name spellings and literal parsing spellings in field order, with no
brackets inserted.  A rendering differs from it only by parentheses, and
any derivation-yield of the term differs from it only by parentheses and
whitespace. -/
def Tm.toks : Tm → List Char
  | .V x => x.str.data
  | .F x e => x.str.data ++ ['.'] ++ e.toks
  | .Top => ['1']
  | .Times p q => p.toks ++ ['*'] ++ q.toks
  | .Plus p q => p.toks ++ ['+'] ++ q.toks
  | .Pow p q => p.toks ++ ['-', '>'] ++ q.toks
  | .Forall xp => "forall ".data ++ xp.toks
  | .Exists xp => "exists ".data ++ xp.toks
  | .Eq m n => m.toks ++ ['='] ++ n.toks

/-! ## Helper lemmas -/

/-- Unfolding of `specReduces` at a nonempty first string. -/
theorem specReduces_cons (c : Char) (s t : List Char) :
    specReduces (c :: s) t =
      ((match t with
        | d :: t2 => if c = d then specReduces s t2 else false
        | [] => false)
      || (if isPar c then specReduces s t else false)) := rfl

/-- A paren-deletion target is contained in the source. -/
theorem specReduces_subset {s t : List Char} (h : specReduces s t = true) : ∀ c ∈ t, c ∈ s := by
  induction s generalizing t with
  | nil =>
    cases t with
    | nil => intro c hc; exact absurd hc (List.not_mem_nil c)
    | cons d t2 => simp [specReduces] at h
  | cons a s2 ih =>
    intro c hc
    rw [specReduces_cons, Bool.or_eq_true] at h
    rcases h with h | h
    · cases t with
      | nil => exact absurd hc (List.not_mem_nil c)
      | cons d t2 =>
        simp only at h
        by_cases had : a = d
        · rw [if_pos had] at h
          rcases List.mem_cons.mp hc with rfl | hc2
          · exact had ▸ List.mem_cons_self a s2
          · exact List.mem_cons_of_mem a (ih h c hc2)
        · rw [if_neg had] at h; exact absurd h (by simp)
    · by_cases hp : isPar a = true
      · rw [if_pos hp] at h
        exact List.mem_cons_of_mem a (ih h c hc)
      · rw [if_neg hp] at h; exact absurd h (by simp)

/-- Every source character of a paren-deletion is kept (in the target) or
is a deleted parenthesis. -/
theorem specReduces_covered {s t : List Char} (h : specReduces s t = true) :
    ∀ c ∈ s, c ∈ t ∨ isPar c = true := by
  induction s generalizing t with
  | nil => intro c hc; exact absurd hc (List.not_mem_nil c)
  | cons a s2 ih =>
    intro c hc
    rw [specReduces_cons, Bool.or_eq_true] at h
    rcases h with h | h
    · cases t with
      | nil => exact absurd h (by simp)
      | cons d t2 =>
        simp only at h
        by_cases had : a = d
        · rw [if_pos had] at h
          rcases List.mem_cons.mp hc with rfl | hc2
          · exact Or.inl (had ▸ List.mem_cons_self d t2)
          · rcases ih h c hc2 with hm | hp
            · exact Or.inl (List.mem_cons_of_mem d hm)
            · exact Or.inr hp
        · rw [if_neg had] at h; exact absurd h (by simp)
    · by_cases hp : isPar a = true
      · rw [if_pos hp] at h
        rcases List.mem_cons.mp hc with rfl | hc2
        · exact Or.inr hp
        · exact ih h c hc2
      · rw [if_neg hp] at h; exact absurd h (by simp)

/-- Exchange step for greedy completeness: a parenthesis at the head of the
target of a paren-deletion can itself be deleted. -/
theorem specReduces_drop_head {s t : List Char} {c : Char} (hp : isPar c = true)
    (h : specReduces s (c :: t) = true) : specReduces s t = true := by
  induction s generalizing t with
  | nil => simp [specReduces] at h
  | cons a s2 ih =>
    rw [specReduces_cons, Bool.or_eq_true] at h
    rcases h with h | h
    · simp only at h
      by_cases hac : a = c
      · rw [if_pos hac] at h
        rw [specReduces_cons, Bool.or_eq_true]
        exact Or.inr (by rw [if_pos (hac ▸ hp)]; exact h)
      · rw [if_neg hac] at h; exact absurd h (by simp)
    · by_cases hpa : isPar a = true
      · rw [if_pos hpa] at h
        rw [specReduces_cons, Bool.or_eq_true]
        exact Or.inr (by rw [if_pos hpa]; exact ih h)
      · rw [if_neg hpa] at h; exact absurd h (by simp)

/-- The greedy two-pointer scan is complete for paren-deletions. -/
theorem redLoop_complete {s t : List Char} (h : specReduces s t = true) :
    redLoop s t = some true := by
  induction s generalizing t with
  | nil =>
    cases t with
    | nil => rfl
    | cons d t2 => simp [specReduces] at h
  | cons a s2 ih =>
    cases t with
    | nil => rfl
    | cons d t2 =>
      rw [specReduces_cons, Bool.or_eq_true] at h
      rw [redLoop]
      by_cases had : a = d
      · rw [if_pos had]
        rcases h with h | h
        · simp only [if_pos had] at h
          exact ih h
        · by_cases hpa : isPar a = true
          · rw [if_pos hpa] at h
            exact ih (specReduces_drop_head (had ▸ hpa) h)
          · rw [if_neg hpa] at h; exact absurd h (by simp)
      · rw [if_neg had]
        rcases h with h | h
        · simp only [if_neg had] at h
          exact absurd h (by simp)
        · by_cases hpa : isPar a = true
          · rw [if_pos hpa]
            rw [if_pos hpa] at h
            exact ih h
          · rw [if_neg hpa] at h; exact absurd h (by simp)

/-- The scan never reads out of bounds when the target is a subsequence of
the source. -/
theorem redLoop_sublist_ne_none {s t : List Char} (h : t.Sublist s) : redLoop s t ≠ none := by
  induction s generalizing t with
  | nil =>
    cases List.sublist_nil.mp h
    simp [redLoop]
  | cons a s2 ih =>
    cases t with
    | nil => simp [redLoop]
    | cons d t2 =>
      rw [redLoop]
      by_cases had : a = d
      · rw [if_pos had]
        cases h with
        | cons _ h2 => exact ih ((List.sublist_cons_self d t2).trans h2)
        | cons₂ _ h2 => exact ih h2
      · rw [if_neg had]
        by_cases hpa : isPar a = true
        · rw [if_pos hpa]
          cases h with
          | cons _ h2 => exact ih h2
          | cons₂ _ h2 => exact absurd rfl had
        · rw [if_neg hpa]; simp

/-- `reducible_to` accepts every genuine paren-deletion: the early
character-set tests pass and the greedy scan succeeds. -/
theorem specReduces_implies_reducible {s t : List Char} (h : specReduces s t = true) :
    reducible_to s t = some true := by
  rw [reducible_to]
  by_cases hst : s = t
  · rw [if_pos hst]
  · rw [if_neg hst]
    have hs : s.any (fun c => !t.contains c && !isPar c) = false := by
      rw [List.any_eq_false]
      intro c hc
      rcases specReduces_covered h c hc with hm | hp
      · simp [hm]
      · simp [hp]
    have ht : t.any (fun c => !s.contains c && !isPar c) = false := by
      rw [List.any_eq_false]
      intro c hc
      simp [specReduces_subset h c hc]
    rw [hs, ht]
    show redLoop s t = some true
    exact redLoop_complete h

theorem nameBoundedMono {c c2 : Nat} (h : c ≤ c2) {a : Name} (hb : a.bounded c = true) :
    a.bounded c2 = true := by
  cases a with
  | mk x n =>
    cases n with
    | none => rfl
    | some k =>
      simp [Name.bounded] at hb ⊢
      omega

theorem tmBoundedMono {c c2 : Nat} (h : c ≤ c2) {t : Tm} (hb : t.bounded c = true) :
    t.bounded c2 = true := by
  induction t with
  | V x => exact nameBoundedMono h hb
  | F x e ih =>
    rw [Tm.bounded, Bool.and_eq_true] at hb ⊢
    exact ⟨nameBoundedMono h hb.1, ih hb.2⟩
  | Top => rfl
  | Times p q ihp ihq =>
    rw [Tm.bounded, Bool.and_eq_true] at hb ⊢
    exact ⟨ihp hb.1, ihq hb.2⟩
  | Plus p q ihp ihq =>
    rw [Tm.bounded, Bool.and_eq_true] at hb ⊢
    exact ⟨ihp hb.1, ihq hb.2⟩
  | Pow p q ihp ihq =>
    rw [Tm.bounded, Bool.and_eq_true] at hb ⊢
    exact ⟨ihp hb.1, ihq hb.2⟩
  | Forall xp ih => exact ih hb
  | Exists xp ih => exact ih hb
  | Eq m n ihm ihn =>
    rw [Tm.bounded, Bool.and_eq_true] at hb ⊢
    exact ⟨ihm hb.1, ihn hb.2⟩

theorem fvs_bounded {c : Nat} {t : Tm} (hb : t.bounded c = true) :
    ∀ a ∈ t.fvs, a.bounded c = true := by
  induction t with
  | V x =>
    intro a ha
    rw [Tm.fvs, Finset.mem_singleton] at ha
    exact ha ▸ hb
  | F x e ih =>
    intro a ha
    rw [Tm.fvs, Finset.mem_sdiff] at ha
    rw [Tm.bounded, Bool.and_eq_true] at hb
    exact ih hb.2 a ha.1
  | Top => intro a ha; simp [Tm.fvs] at ha
  | Times p q ihp ihq =>
    intro a ha
    rw [Tm.bounded, Bool.and_eq_true] at hb
    rcases Finset.mem_union.mp ha with h | h
    · exact ihp hb.1 a h
    · exact ihq hb.2 a h
  | Plus p q ihp ihq =>
    intro a ha
    rw [Tm.bounded, Bool.and_eq_true] at hb
    rcases Finset.mem_union.mp ha with h | h
    · exact ihp hb.1 a h
    · exact ihq hb.2 a h
  | Pow p q ihp ihq =>
    intro a ha
    rw [Tm.bounded, Bool.and_eq_true] at hb
    rcases Finset.mem_union.mp ha with h | h
    · exact ihp hb.1 a h
    · exact ihq hb.2 a h
  | Forall xp ih => exact ih hb
  | Exists xp ih => exact ih hb
  | Eq m n ihm ihn =>
    intro a ha
    rw [Tm.bounded, Bool.and_eq_true] at hb
    rcases Finset.mem_union.mp ha with h | h
    · exact ihm hb.1 a h
    · exact ihn hb.2 a h

theorem subst_counter_le (t : Tm) (σ : List (Name × Tm)) (c : Nat) :
    c ≤ (Tm.subst t σ c).2 := by
  induction t generalizing σ c with
  | V x => simp [Tm.subst]
  | F x e ih =>
    have := ih ((x, Tm.V ⟨x.x, some c⟩) :: σ) (c + 1)
    simp only [Tm.subst]
    omega
  | Top => simp [Tm.subst]
  | Times p q ihp ihq =>
    have h1 := ihp σ c
    have h2 := ihq σ (Tm.subst p σ c).2
    simp only [Tm.subst]
    omega
  | Plus p q ihp ihq =>
    have h1 := ihp σ c
    have h2 := ihq σ (Tm.subst p σ c).2
    simp only [Tm.subst]
    omega
  | Pow p q ihp ihq =>
    have h1 := ihp σ c
    have h2 := ihq σ (Tm.subst p σ c).2
    simp only [Tm.subst]
    omega
  | Forall xp ih => exact ih σ c
  | Exists xp ih => exact ih σ c
  | Eq m n ihm ihn =>
    have h1 := ihm σ c
    have h2 := ihn σ (Tm.subst m σ c).2
    simp only [Tm.subst]
    omega

theorem substImage_cons (x : Name) (r : Tm) (σ : List (Name × Tm)) (z : Name) :
    substImage ((x, r) :: σ) z = if x = z then r.fvs else substImage σ z := by
  by_cases h : x = z
  · simp [substImage, lookupN, h]
  · simp [substImage, lookupN, h]

theorem substImage_bounded {c : Nat} {σ : List (Name × Tm)}
    (hσ : ∀ z r, lookupN σ z = some r → Tm.bounded c r = true)
    {z : Name} (hz : z.bounded c = true) :
    ∀ a ∈ substImage σ z, a.bounded c = true := by
  intro a ha
  rw [substImage] at ha
  cases h : lookupN σ z with
  | none => rw [h, Finset.mem_singleton] at ha; exact ha ▸ hz
  | some r => rw [h] at ha; exact fvs_bounded (hσ z r h) a ha

theorem fresh_not_bounded (tag : String) (c : Nat) :
    Name.bounded c ⟨tag, some c⟩ = false := by
  simp [Name.bounded]

theorem finsetBiUnionUnion {α β : Type} [DecidableEq α] [DecidableEq β]
    (s t : Finset α) (f : α → Finset β) :
    (s ∪ t).biUnion f = s.biUnion f ∪ t.biUnion f := by
  ext a
  simp only [Finset.mem_biUnion, Finset.mem_union]
  constructor
  · rintro ⟨z, hz | hz, ha⟩
    · exact Or.inl ⟨z, hz, ha⟩
    · exact Or.inr ⟨z, hz, ha⟩
  · rintro (⟨z, hz, ha⟩ | ⟨z, hz, ha⟩)
    · exact ⟨z, Or.inl hz, ha⟩
    · exact ⟨z, Or.inr hz, ha⟩

theorem fvs_subst {t : Tm} {σ : List (Name × Tm)} {c : Nat}
    (ht : t.bounded c = true)
    (hσ : ∀ z r, lookupN σ z = some r → Tm.bounded c r = true) :
    (Tm.subst t σ c).1.fvs = t.fvs.biUnion (substImage σ) := by
  induction t generalizing σ c with
  | V x =>
    simp only [Tm.subst, Tm.fvs, Finset.singleton_biUnion, substImage]
    cases h : lookupN σ x with
    | none => simp [Tm.fvs]
    | some r => simp
  | F x e ih =>
    rw [Tm.bounded, Bool.and_eq_true] at ht
    have hσ2 : ∀ z r, lookupN ((x, Tm.V ⟨x.x, some c⟩) :: σ) z = some r →
        Tm.bounded (c + 1) r = true := by
      intro z r h
      rw [lookupN] at h
      by_cases hxz : x = z
      · rw [if_pos hxz] at h
        cases h
        simp [Tm.bounded, Name.bounded]
      · rw [if_neg hxz] at h
        exact tmBoundedMono (Nat.le_succ c) (hσ z r h)
    have ihe := ih (tmBoundedMono (Nat.le_succ c) ht.2) hσ2
    simp only [Tm.subst, Tm.fvs]
    rw [ihe]
    ext a
    simp only [Finset.mem_sdiff, Finset.mem_biUnion, Finset.mem_singleton]
    constructor
    · rintro ⟨⟨z, hz, ha⟩, hne⟩
      rw [substImage_cons] at ha
      by_cases hxz : x = z
      · rw [if_pos hxz, Tm.fvs, Finset.mem_singleton] at ha
        exact absurd ha hne
      · rw [if_neg hxz] at ha
        exact ⟨z, ⟨hz, fun hh => hxz hh.symm⟩, ha⟩
    · rintro ⟨z, hz, ha⟩
      have hzb : z.bounded c = true := fvs_bounded ht.2 z hz.1
      have hab : a.bounded c = true := substImage_bounded hσ hzb a ha
      refine ⟨⟨z, hz.1, ?_⟩, ?_⟩
      · rw [substImage_cons, if_neg (fun hh : x = z => hz.2 hh.symm)]
        exact ha
      · intro hax
        rw [hax, fresh_not_bounded] at hab
        exact Bool.false_ne_true hab
  | Top => simp [Tm.subst, Tm.fvs]
  | Times p q ihp ihq =>
    rw [Tm.bounded, Bool.and_eq_true] at ht
    have hc1 := subst_counter_le p σ c
    have e1 := ihp ht.1 hσ
    have e2 := ihq (tmBoundedMono hc1 ht.2)
      (fun z r h => tmBoundedMono hc1 (hσ z r h))
    simp only [Tm.subst, Tm.fvs]
    rw [e1, e2, finsetBiUnionUnion]
  | Plus p q ihp ihq =>
    rw [Tm.bounded, Bool.and_eq_true] at ht
    have hc1 := subst_counter_le p σ c
    have e1 := ihp ht.1 hσ
    have e2 := ihq (tmBoundedMono hc1 ht.2)
      (fun z r h => tmBoundedMono hc1 (hσ z r h))
    simp only [Tm.subst, Tm.fvs]
    rw [e1, e2, finsetBiUnionUnion]
  | Pow p q ihp ihq =>
    rw [Tm.bounded, Bool.and_eq_true] at ht
    have hc1 := subst_counter_le p σ c
    have e1 := ihp ht.1 hσ
    have e2 := ihq (tmBoundedMono hc1 ht.2)
      (fun z r h => tmBoundedMono hc1 (hσ z r h))
    simp only [Tm.subst, Tm.fvs]
    rw [e1, e2, finsetBiUnionUnion]
  | Forall xp ih =>
    have := ih ht hσ
    simp only [Tm.subst, Tm.fvs]
    exact this
  | Exists xp ih =>
    have := ih ht hσ
    simp only [Tm.subst, Tm.fvs]
    exact this
  | Eq m n ihm ihn =>
    rw [Tm.bounded, Bool.and_eq_true] at ht
    have hc1 := subst_counter_le m σ c
    have e1 := ihm ht.1 hσ
    have e2 := ihn (tmBoundedMono hc1 ht.2)
      (fun z r h => tmBoundedMono hc1 (hσ z r h))
    simp only [Tm.subst, Tm.fvs]
    rw [e1, e2, finsetBiUnionUnion]

/-- The final test of the C2 proof plan: the faithful renderer agrees with
the amended description of the algorithm for every term, mode, incoming
bound pair, and precedence query function. -/
theorem str_eq_amendRender_aux (le : String → String → Bool) (t : Tm) :
    ∀ (mode : Mode) (l r : String), Tm.str le t mode l r = amendRender le t mode l r := by
  induction t with
  | V x => intro mode l r; rfl
  | F x e ih => intro mode l r; simp only [Tm.str, amendRender, ih]
  | Top =>
    intro mode l r
    rcases Bool.eq_false_or_eq_true (le l "Top") with h1 | h1 <;>
      rcases Bool.eq_false_or_eq_true (le r "Top.s") with h2 | h2 <;>
      simp [Tm.str, amendRender, mixfixStr, mixfixGo, h1, h2]
  | Times p q ihp ihq =>
    intro mode l r
    rcases Bool.eq_false_or_eq_true (le l "Times") with h1 | h1 <;>
      rcases Bool.eq_false_or_eq_true (le r "Times.q") with h2 | h2 <;>
      simp [Tm.str, amendRender, mixfixStr, mixfixGo, h1, h2, ihp, ihq, String.append_assoc]
  | Plus p q ihp ihq =>
    intro mode l r
    rcases Bool.eq_false_or_eq_true (le l "Plus") with h1 | h1 <;>
      rcases Bool.eq_false_or_eq_true (le r "Plus.q") with h2 | h2 <;>
      simp [Tm.str, amendRender, mixfixStr, mixfixGo, h1, h2, ihp, ihq, String.append_assoc]
  | Pow p q ihp ihq =>
    intro mode l r
    rcases Bool.eq_false_or_eq_true (le l "Pow") with h1 | h1 <;>
      rcases Bool.eq_false_or_eq_true (le r "Pow.q") with h2 | h2 <;>
      simp [Tm.str, amendRender, mixfixStr, mixfixGo, h1, h2, ihp, ihq, String.append_assoc]
  | Forall xp ih =>
    intro mode l r
    rcases Bool.eq_false_or_eq_true (le l "Forall") with h1 | h1 <;>
      rcases Bool.eq_false_or_eq_true (le r "Forall.xp") with h2 | h2 <;>
      simp [Tm.str, amendRender, mixfixStr, mixfixGo, h1, h2, ih, String.append_assoc]
  | Exists xp ih =>
    intro mode l r
    rcases Bool.eq_false_or_eq_true (le l "Exists") with h1 | h1 <;>
      rcases Bool.eq_false_or_eq_true (le r "Exists.xp") with h2 | h2 <;>
      simp [Tm.str, amendRender, mixfixStr, mixfixGo, h1, h2, ih, String.append_assoc]
  | Eq m n ihm ihn =>
    intro mode l r
    rcases Bool.eq_false_or_eq_true (le l "Eq") with h1 | h1 <;>
      rcases Bool.eq_false_or_eq_true (le r "Eq.n") with h2 | h2 <;>
      simp [Tm.str, amendRender, mixfixStr, mixfixGo, h1, h2, ihm, ihn, String.append_assoc]

/-- The scan of `reducible_to` completes whenever the target is a
subsequence of the source. -/
theorem reducible_ne_none_of_sublist {s t : List Char} (h : t.Sublist s) :
    reducible_to s t ≠ none := by
  rw [reducible_to]
  by_cases hst : s = t
  · rw [if_pos hst]; simp
  · rw [if_neg hst]
    by_cases h1 : (s.any (fun c => !t.contains c && !isPar c) || t.any (fun c => !s.contains c && !isPar c)) = true
    · rw [if_pos h1]; simp
    · rw [if_neg h1]
      by_cases h2 : s.any (fun c => !t.contains c && !isPar c) = true
      · rw [if_pos h2]; simp
      · rw [if_neg h2]
        exact redLoop_sublist_ne_none h

/-- A bounded search that finds an element returns the least element
satisfying the predicate at or after the start. -/
theorem searchFrom_some {p : Nat → Bool} {k fuel m : Nat}
    (h : searchFrom p k fuel = some m) :
    p m = true ∧ k ≤ m ∧ ∀ j, k ≤ j → j < m → p j = false := by
  induction fuel generalizing k with
  | zero => simp [searchFrom] at h
  | succ fuel ih =>
    rw [searchFrom] at h
    by_cases hp : p k = true
    · rw [if_pos hp] at h
      cases h
      exact ⟨hp, Nat.le_refl _, fun j h1 h2 => absurd h1 (Nat.not_le.mpr h2)⟩
    · rw [if_neg hp] at h
      obtain ⟨h1, h2, h3⟩ := ih h
      refine ⟨h1, Nat.le_of_succ_le h2, fun j hj1 hj2 => ?_⟩
      by_cases hjk : j = k
      · exact hjk ▸ Bool.eq_false_iff.mpr hp
      · exact h3 j (Nat.lt_of_le_of_ne hj1 (fun hh => hjk hh.symm)) hj2

theorem searchFrom_isSome {p : Nat → Bool} {k fuel j : Nat}
    (hj1 : k ≤ j) (hj2 : j < k + fuel) (hp : p j = true) :
    (searchFrom p k fuel).isSome = true := by
  induction fuel generalizing k with
  | zero => omega
  | succ fuel ih =>
    rw [searchFrom]
    by_cases hpk : p k = true
    · rw [if_pos hpk]; rfl
    · rw [if_neg hpk]
      have hkj : k ≠ j := fun hh => hpk (hh ▸ hp)
      exact ih (by omega) (by omega)

theorem pickName_avoids (tag : String) (used : Finset Name) :
    pickName tag used ∉ used := by
  rw [pickName]
  by_cases h0 : (⟨tag, none⟩ : Name) ∉ used
  · rw [if_pos h0]; exact h0
  · rw [if_neg h0]
    have hex : ∃ j, j ≤ used.card ∧ (⟨tag, some j⟩ : Name) ∉ used := by
      by_contra hall
      push_neg at hall
      have himg : (Finset.range (used.card + 1)).image
          (fun k => (⟨tag, some k⟩ : Name)) ⊆ used := by
        intro a ha
        obtain ⟨k, hk, rfl⟩ := Finset.mem_image.mp ha
        exact hall k (Nat.lt_succ_iff.mp (Finset.mem_range.mp hk))
      have hinj : Function.Injective (fun k => (⟨tag, some k⟩ : Name)) := by
        intro a b hab
        simpa using hab
      have hcard := Finset.card_le_card himg
      rw [Finset.card_image_of_injective _ hinj, Finset.card_range] at hcard
      omega
    obtain ⟨j, hj1, hj2⟩ := hex
    have hsome := @searchFrom_isSome (fun k => !decide ((⟨tag, some k⟩ : Name) ∈ used))
      0 (used.card + 1) j (Nat.zero_le j) (by omega) (by simp [hj2])
    cases hfind : searchFrom (fun k => !decide ((⟨tag, some k⟩ : Name) ∈ used)) 0 (used.card + 1) with
    | none => rw [hfind] at hsome; simp at hsome
    | some m =>
      have := (searchFrom_some hfind).1
      simpa using this

theorem pickName_tag (tag : String) (used : Finset Name) :
    (pickName tag used).x = tag := by
  rw [pickName]
  by_cases h0 : (⟨tag, none⟩ : Name) ∉ used
  · rw [if_pos h0]
  · rw [if_neg h0]
    cases hfind : searchFrom (fun k => !decide ((⟨tag, some k⟩ : Name) ∈ used)) 0 (used.card + 1) with
    | none => rfl
    | some m => rfl

theorem pickName_minimal (tag : String) (used : Finset Name) :
    ((pickName tag used).n = none ∧ (⟨tag, none⟩ : Name) ∉ used) ∨
    (∃ k, (pickName tag used).n = some k ∧ (⟨tag, none⟩ : Name) ∈ used ∧
      (⟨tag, some k⟩ : Name) ∉ used ∧ ∀ m < k, (⟨tag, some m⟩ : Name) ∈ used) := by
  rw [pickName]
  by_cases h0 : (⟨tag, none⟩ : Name) ∉ used
  · rw [if_pos h0]; exact Or.inl ⟨rfl, h0⟩
  · rw [if_neg h0]
    cases hfind : searchFrom (fun k => !decide ((⟨tag, some k⟩ : Name) ∈ used)) 0 (used.card + 1) with
    | none =>
      exfalso
      have hpn := pickName_avoids tag used
      rw [pickName, if_neg h0, hfind] at hpn
      exact h0 hpn
    | some m =>
      obtain ⟨h1, _, h3⟩ := searchFrom_some hfind
      refine Or.inr ⟨m, rfl, not_not.mp h0, by simpa using h1, fun j hj => ?_⟩
      have := h3 j (Nat.zero_le j) hj
      simpa using this

theorem eqTm_refl_aux (t : Tm) :
    ∀ ren, (∀ z w, lookupN ren z = some w → w = z) → eqTm t t ren = some true := by
  induction t with
  | V x =>
    intro ren hren
    rw [eqTm]
    cases h : lookupN ren x with
    | none => simp [h]
    | some w => simp [h, hren x w h]
  | F x e ih =>
    intro ren hren
    rw [eqTm]
    refine ih ((x, x) :: ren) ?_
    intro z w h
    rw [lookupN] at h
    by_cases hxz : x = z
    · rw [if_pos hxz] at h; cases h; exact hxz
    · rw [if_neg hxz] at h; exact hren z w h
  | Top => intro ren hren; rfl
  | Times p q ihp ihq =>
    intro ren hren
    rw [eqTm, ihp ren hren]
    exact ihq ren hren
  | Plus p q ihp ihq =>
    intro ren hren
    rw [eqTm, ihp ren hren]
    exact ihq ren hren
  | Pow p q ihp ihq =>
    intro ren hren
    rw [eqTm, ihp ren hren]
    exact ihq ren hren
  | Forall xp ih => intro ren hren; exact ih ren hren
  | Exists xp ih => intro ren hren; exact ih ren hren
  | Eq m n ihm ihn =>
    intro ren hren
    rw [eqTm, ihm ren hren]
    exact ihn ren hren

theorem core_append (a b : List Char) : core (a ++ b) = core a ++ core b := by
  simp [core, List.filter_append]

theorem nonPar_strip (x : List Char) : nonPar (strip x) = core x := by
  induction x with
  | nil => rfl
  | cons c cs ih =>
    cases hw : c.isWhitespace <;> cases hp : isPar c <;>
      simp only [strip, nonPar, core, List.filter_cons, hw, hp, Bool.not_true, Bool.not_false,
        Bool.and_true, Bool.and_false, if_true, if_false] <;>
      simp only [strip, nonPar, core] at ih <;> simp [ih]

theorem core_strip (x : List Char) : core (strip x) = core x := by
  induction x with
  | nil => rfl
  | cons c cs ih =>
    cases hw : c.isWhitespace <;> cases hp : isPar c <;>
      simp only [strip, core, List.filter_cons, hw, hp, Bool.not_true, Bool.not_false,
        Bool.and_true, Bool.and_false, if_true, if_false] <;>
      simp only [strip, core] at ih <;> simp [ih]

theorem specReduces_refl (s : List Char) : specReduces s s = true := by
  induction s with
  | nil => rfl
  | cons c cs ih => simp [specReduces_cons, ih]

theorem specReduces_all_parens {s : List Char} (h : ∀ c ∈ s, isPar c = true) :
    specReduces s [] = true := by
  induction s with
  | nil => rfl
  | cons c cs ih =>
    have hc := h c (List.mem_cons_self c cs)
    simp [specReduces_cons, hc, ih (fun d hd => h d (List.mem_cons_of_mem c hd))]

theorem core_nil : core [] = [] := rfl

theorem core_cons (c : Char) (s : List Char) :
    core (c :: s) = if !isPar c && !c.isWhitespace then c :: core s else core s := by
  simp [core, List.filter_cons]

theorem core_amend_eq_toks (le : String → String → Bool) (v : Tm) :
    ∀ l r : String, core ((amendRender le v none l r).data) = core v.toks := by
  induction v with
  | V x => intro l r; rfl
  | F x e ih =>
    intro l r
    simp [amendRender, Tm.toks, String.data_append, core_append, core_cons, core_nil, isPar, ih]
  | Top =>
    intro l r
    rcases Bool.eq_false_or_eq_true (le l "Top") with h1 | h1 <;>
      rcases Bool.eq_false_or_eq_true (le r "Top.s") with h2 | h2 <;>
      simp [amendRender, Tm.toks, h1, h2, defaultBracket, StrLit.inMode,
        String.data_append, core_append, core_cons, core_nil, isPar]
  | Times p q ihp ihq =>
    intro l r
    rcases Bool.eq_false_or_eq_true (le l "Times") with h1 | h1 <;>
      rcases Bool.eq_false_or_eq_true (le r "Times.q") with h2 | h2 <;>
      simp [amendRender, Tm.toks, h1, h2, defaultBracket, StrLit.inMode,
        String.data_append, core_append, core_cons, core_nil, isPar, ihp, ihq]
  | Plus p q ihp ihq =>
    intro l r
    rcases Bool.eq_false_or_eq_true (le l "Plus") with h1 | h1 <;>
      rcases Bool.eq_false_or_eq_true (le r "Plus.q") with h2 | h2 <;>
      simp [amendRender, Tm.toks, h1, h2, defaultBracket, StrLit.inMode,
        String.data_append, core_append, core_cons, core_nil, isPar, ihp, ihq]
  | Pow p q ihp ihq =>
    intro l r
    rcases Bool.eq_false_or_eq_true (le l "Pow") with h1 | h1 <;>
      rcases Bool.eq_false_or_eq_true (le r "Pow.q") with h2 | h2 <;>
      simp [amendRender, Tm.toks, h1, h2, defaultBracket, StrLit.inMode,
        String.data_append, core_append, core_cons, core_nil, isPar, ihp, ihq]
  | Forall xp ih =>
    intro l r
    rcases Bool.eq_false_or_eq_true (le l "Forall") with h1 | h1 <;>
      rcases Bool.eq_false_or_eq_true (le r "Forall.xp") with h2 | h2 <;>
      simp [amendRender, Tm.toks, h1, h2, defaultBracket, StrLit.inMode,
        String.data_append, core_append, core_cons, core_nil, isPar, ih]
  | Exists xp ih =>
    intro l r
    rcases Bool.eq_false_or_eq_true (le l "Exists") with h1 | h1 <;>
      rcases Bool.eq_false_or_eq_true (le r "Exists.xp") with h2 | h2 <;>
      simp [amendRender, Tm.toks, h1, h2, defaultBracket, StrLit.inMode,
        String.data_append, core_append, core_cons, core_nil, isPar, ih]
  | Eq m n ihm ihn =>
    intro l r
    rcases Bool.eq_false_or_eq_true (le l "Eq") with h1 | h1 <;>
      rcases Bool.eq_false_or_eq_true (le r "Eq.n") with h2 | h2 <;>
      simp [amendRender, Tm.toks, h1, h2, defaultBracket, StrLit.inMode,
        String.data_append, core_append, core_cons, core_nil, isPar, ihm, ihn]

theorem mem_bFold {f : Tm → List Tm} {lb : List Tm} {acc : List Tm} {v : Tm}
    (h : v ∈ lb.foldr (fun b acc4 => f b ++ acc4) acc) :
    (∃ b ∈ lb, v ∈ f b) ∨ v ∈ acc := by
  induction lb generalizing acc with
  | nil => exact Or.inr h
  | cons b tl ih =>
    rw [List.foldr_cons] at h
    rcases List.mem_append.mp h with h2 | h2
    · exact Or.inl ⟨b, List.mem_cons_self b tl, h2⟩
    · rcases ih h2 with ⟨b2, hb2, hv⟩ | hv
      · exact Or.inl ⟨b2, List.mem_cons_of_mem b hb2, hv⟩
      · exact Or.inr hv

theorem mem_abFold {mk : Tm → Tm → List Tm} {la lb : List Tm} {acc : List Tm} {v : Tm}
    (h : v ∈ la.foldr (fun a acc3 => lb.foldr (fun b acc4 => mk a b ++ acc4) acc3) acc) :
    (∃ a ∈ la, ∃ b ∈ lb, v ∈ mk a b) ∨ v ∈ acc := by
  induction la generalizing acc with
  | nil => exact Or.inr h
  | cons a tl ih =>
    rw [List.foldr_cons] at h
    rcases mem_bFold h with ⟨b, hb, hv⟩ | h2
    · exact Or.inl ⟨a, List.mem_cons_self a tl, b, hb, hv⟩
    · rcases ih h2 with ⟨a2, ha2, b2, hb2, hv⟩ | hv
      · exact Or.inl ⟨a2, List.mem_cons_of_mem a ha2, b2, hb2, hv⟩
      · exact Or.inr hv

theorem mem_splitsFold {mk : Tm → Tm → List Tm} {lit : List Char} {s : List Char}
    {fuel : Nat} {acc : List Tm} {v : Tm}
    (h : v ∈ (splitsOn lit s).foldr (fun pr acc2 =>
       (derive1 fuel pr.1).foldr (fun a acc3 =>
         (derive1 fuel pr.2).foldr (fun b acc4 => mk a b ++ acc4) acc3) acc2) acc) :
    (∃ pr ∈ splitsOn lit s, ∃ a ∈ derive1 fuel pr.1, ∃ b ∈ derive1 fuel pr.2, v ∈ mk a b)
    ∨ v ∈ acc := by
  generalize hL : splitsOn lit s = L at *
  clear hL
  induction L generalizing acc with
  | nil => exact Or.inr h
  | cons pr tl ih =>
    rw [List.foldr_cons] at h
    rcases mem_abFold h with ⟨a, ha, b, hb, hv⟩ | h2
    · exact Or.inl ⟨pr, List.mem_cons_self pr tl, a, ha, b, hb, hv⟩
    · rcases ih h2 with ⟨pr2, hpr2, rest⟩ | hv
      · exact Or.inl ⟨pr2, List.mem_cons_of_mem pr hpr2, rest⟩
      · exact Or.inr hv

theorem splitsOn_eq {lit s : List Char} {pr : List Char × List Char}
    (h : pr ∈ splitsOn lit s) : s = pr.1 ++ lit ++ pr.2 := by
  rw [splitsOn] at h
  rcases List.mem_filterMap.mp h with ⟨i, _, hi⟩
  by_cases hp : lit.isPrefixOf (s.drop i)
  · rw [if_pos hp] at hi
    cases hi
    rcases List.isPrefixOf_iff_prefix.mp hp with ⟨u, hu⟩
    have hdrop : (s.drop i).drop lit.length = u := by
      rw [← hu, List.drop_left]
    simp only [hdrop]
    rw [List.append_assoc, hu, List.take_append_drop]
  · rw [if_neg hp] at hi
    cases hi

theorem derive1_inv {fuel : Nat} {s : List Char} {v : Tm} (h : v ∈ derive1 (fuel+1) s) :
    (s = ['1'] ∧ v = Tm.Top)
    ∨ (identOk s = true ∧ v = Tm.V ⟨⟨s⟩, none⟩)
    ∨ (∃ rest, s = '(' :: rest ∧ rest.getLast? = some ')' ∧ v ∈ derive1 fuel rest.dropLast)
    ∨ (∃ pr ∈ splitsOn ['*'] s, ∃ a ∈ derive1 fuel pr.1, ∃ b ∈ derive1 fuel pr.2, v = Tm.Times a b)
    ∨ (∃ pr ∈ splitsOn ['+'] s, ∃ a ∈ derive1 fuel pr.1, ∃ b ∈ derive1 fuel pr.2, v = Tm.Plus a b)
    ∨ (∃ pr ∈ splitsOn ['-', '>'] s, ∃ a ∈ derive1 fuel pr.1, ∃ b ∈ derive1 fuel pr.2, v = Tm.Pow a b)
    ∨ (∃ pr ∈ splitsOn ['.'] s, ∃ x, Tm.V x ∈ derive1 fuel pr.1
        ∧ ∃ b ∈ derive1 fuel pr.2, v = Tm.F x b) := by
  have hd : derive1 (fuel+1) s =
      ((if s = ['1'] then [Tm.Top] else [])
      ++ (if identOk s then [Tm.V ⟨⟨s⟩, none⟩] else [])
      ++ (match s with
          | '(' :: rest =>
            if rest.getLast? = some ')' then derive1 fuel rest.dropLast else []
          | _ => [])
      ++ prods1.foldr (fun op acc =>
           (splitsOn op.2 s).foldr (fun pr acc2 =>
             (derive1 fuel pr.1).foldr (fun a acc3 =>
               (derive1 fuel pr.2).foldr (fun b acc4 => op.1 a b ++ acc4) acc3) acc2) acc) []) := rfl
  rw [hd] at h
  rcases List.mem_append.mp h with h123 | h4
  · rcases List.mem_append.mp h123 with h12 | h3
    · rcases List.mem_append.mp h12 with h1 | h2
      · by_cases hs : s = ['1']
        · rw [if_pos hs] at h1
          exact Or.inl ⟨hs, List.mem_singleton.mp h1⟩
        · rw [if_neg hs] at h1
          exact absurd h1 (List.not_mem_nil v)
      · by_cases hs : identOk s = true
        · rw [if_pos hs] at h2
          exact Or.inr (Or.inl ⟨hs, List.mem_singleton.mp h2⟩)
        · rw [if_neg hs] at h2
          exact absurd h2 (List.not_mem_nil v)
    · refine Or.inr (Or.inr (Or.inl ?_))
      split at h3
      · rename_i rest
        by_cases hl : rest.getLast? = some ')'
        · rw [if_pos hl] at h3
          exact ⟨rest, rfl, hl, h3⟩
        · rw [if_neg hl] at h3
          exact absurd h3 (List.not_mem_nil v)
      · exact absurd h3 (List.not_mem_nil v)
  · simp only [prods1, List.foldr_cons, List.foldr_nil] at h4
    rcases mem_splitsFold h4 with ⟨pr, hpr, a, ha, b, hb, hv⟩ | h4
    · exact Or.inr (Or.inr (Or.inr (Or.inl ⟨pr, hpr, a, ha, b, hb, List.mem_singleton.mp hv⟩)))
    rcases mem_splitsFold h4 with ⟨pr, hpr, a, ha, b, hb, hv⟩ | h4
    · exact Or.inr (Or.inr (Or.inr (Or.inr (Or.inl ⟨pr, hpr, a, ha, b, hb, List.mem_singleton.mp hv⟩))))
    rcases mem_splitsFold h4 with ⟨pr, hpr, a, ha, b, hb, hv⟩ | h4
    · exact Or.inr (Or.inr (Or.inr (Or.inr (Or.inr (Or.inl ⟨pr, hpr, a, ha, b, hb, List.mem_singleton.mp hv⟩)))))
    rcases mem_splitsFold h4 with ⟨pr, hpr, a, ha, b, hb, hv⟩ | h4
    · refine Or.inr (Or.inr (Or.inr (Or.inr (Or.inr (Or.inr ⟨pr, hpr, ?_⟩)))))
      match a, hv with
      | Tm.V x, hv => exact ⟨x, ha, b, hb, List.mem_singleton.mp hv⟩
    · exact absurd h4 (List.not_mem_nil v)

theorem toks_core_of_derive1 (fuel : Nat) :
    ∀ (s : List Char) (v : Tm), v ∈ derive1 fuel s → core v.toks = core s := by
  induction fuel with
  | zero =>
    intro s v h
    exact absurd h (List.not_mem_nil v)
  | succ fuel ih =>
    intro s v h
    rcases derive1_inv h with ⟨hs, hv⟩ | ⟨hs, hv⟩ | ⟨rest, hs, hl, hv⟩
      | ⟨pr, hpr, a, ha, b, hb, hv⟩ | ⟨pr, hpr, a, ha, b, hb, hv⟩
      | ⟨pr, hpr, a, ha, b, hb, hv⟩ | ⟨pr, hpr, x, hx, b, hb, hv⟩
    · subst hs hv; rfl
    · subst hv
      show core ((Name.str ⟨⟨s⟩, none⟩).data) = core s
      have hdata : (Name.str ⟨⟨s⟩, none⟩).data = s := by
        show ((⟨s⟩ : String) ++ "").data = s
        rw [String.data_append]
        simp
      rw [hdata]
    · subst hs
      have h1 := ih rest.dropLast v hv
      rw [h1]
      have hne : rest ≠ [] := by
        intro hh
        rw [hh] at hl
        simp at hl
      have hlast : rest.getLast hne = ')' := by
        have := List.getLast?_eq_getLast rest hne
        rw [this] at hl
        exact Option.some.inj hl
      have hrest : rest.dropLast ++ [')'] = rest := by
        rw [← hlast]
        exact List.dropLast_append_getLast hne
      calc core rest.dropLast
          = core (rest.dropLast ++ [')']) := by
            rw [core_append]; simp [core_cons, core_nil, isPar]
        _ = core ('(' :: rest) := by rw [hrest]; simp [core_cons, isPar]
    · subst hv
      rw [splitsOn_eq hpr]
      show core (a.toks ++ ['*'] ++ b.toks) = _
      rw [core_append, core_append, core_append, core_append,
        ih pr.1 a ha, ih pr.2 b hb]
    · subst hv
      rw [splitsOn_eq hpr]
      show core (a.toks ++ ['+'] ++ b.toks) = _
      rw [core_append, core_append, core_append, core_append,
        ih pr.1 a ha, ih pr.2 b hb]
    · subst hv
      rw [splitsOn_eq hpr]
      show core (a.toks ++ ['-', '>'] ++ b.toks) = _
      rw [core_append, core_append, core_append, core_append,
        ih pr.1 a ha, ih pr.2 b hb]
    · subst hv
      rw [splitsOn_eq hpr]
      show core (x.str.data ++ ['.'] ++ b.toks) = _
      have hxcore : core x.str.data = core pr.1 := ih pr.1 (Tm.V x) hx
      rw [core_append, core_append, core_append, core_append, hxcore, ih pr.2 b hb]

theorem redLoop_sound_inv {s t : List Char} (hinv : nonPar s = nonPar t)
    (h : redLoop s t = some true) : specReduces s t = true := by
  induction s generalizing t with
  | nil =>
    cases t with
    | nil => rfl
    | cons d t2 => simp [redLoop] at h
  | cons a s2 ih =>
    cases t with
    | nil =>
      refine specReduces_all_parens ?_
      intro c hc
      have : nonPar (a :: s2) = [] := hinv
      rw [nonPar] at this
      by_contra hpc
      have hmem : c ∈ List.filter (fun c => !isPar c) (a :: s2) :=
        List.mem_filter.mpr ⟨hc, by simp [Bool.eq_false_iff.mpr hpc]⟩
      rw [this] at hmem
      exact List.not_mem_nil c hmem
    | cons d t2 =>
      rw [redLoop] at h
      by_cases had : a = d
      · rw [if_pos had] at h
        rw [specReduces_cons, Bool.or_eq_true]
        refine Or.inl ?_
        simp only [if_pos had]
        by_cases hpa : isPar a = true
        · have hinv2 : nonPar s2 = nonPar t2 := by
            rw [nonPar, nonPar, List.filter_cons, List.filter_cons] at hinv
            rw [hpa] at hinv
            rw [had] at hpa
            rw [hpa] at hinv
            simpa using hinv
          exact ih hinv2 h
        · have hpa2 : isPar a = false := Bool.eq_false_iff.mpr hpa
          have hinv2 : nonPar s2 = nonPar t2 := by
            rw [nonPar, nonPar, List.filter_cons, List.filter_cons] at hinv
            rw [hpa2] at hinv
            rw [had] at hpa2
            rw [hpa2] at hinv
            rw [nonPar, nonPar]
            exact (by simpa using hinv : a = d ∧ _).2
          exact ih hinv2 h
      · rw [if_neg had] at h
        by_cases hpa : isPar a = true
        · rw [if_pos hpa] at h
          have hinv2 : nonPar s2 = nonPar (d :: t2) := by
            rw [nonPar, List.filter_cons, hpa] at hinv
            simpa using hinv
          rw [specReduces_cons, Bool.or_eq_true]
          exact Or.inr (by rw [if_pos hpa]; exact ih hinv2 h)
        · rw [if_neg hpa] at h
          exact absurd h (by simp)

theorem reducible_iff_spec_of_inv {s t : List Char} (hinv : nonPar s = nonPar t) :
    reducible_to s t = some true ↔ specReduces s t = true := by
  constructor
  · intro h
    rw [reducible_to] at h
    by_cases hst : s = t
    · rw [hst]
      exact specReduces_refl t
    · rw [if_neg hst] at h
      by_cases h1 : (s.any (fun c => !t.contains c && !isPar c)
          || t.any (fun c => !s.contains c && !isPar c)) = true
      · rw [if_pos h1] at h
        exact absurd h (by simp)
      · rw [if_neg h1] at h
        by_cases h2 : s.any (fun c => !t.contains c && !isPar c) = true
        · rw [if_pos h2] at h
          exact absurd h (by simp)
        · rw [if_neg h2] at h
          exact redLoop_sound_inv hinv h
  · exact specReduces_implies_reducible


/-! ## Claim theorems -/

set_option maxRecDepth 10000

/-- C1, counterexample.  The round-trip `parse(render(t)) ≡ t` fails for
the binder term `F('x', lambda x: x)` (which the sanctioned constructor
builds as `F(Name('x', 0), V(Name('x', 0)))`): its default-mode rendering
is `"x@0.x@0"`, whose `@`-characters no grammar token can produce, so
parsing yields no candidate and fails instead of returning a term. -/
theorem C1_counterexample :
    Tm.str le1 (Tm.F ⟨"x", some 0⟩ (Tm.V ⟨"x", some 0⟩)) none "bot" "bot" = "x@0.x@0"
    ∧ parse1 (Tm.str le1 (Tm.F ⟨"x", some 0⟩ (Tm.V ⟨"x", some 0⟩)) none "bot" "bot").data
      = some (Except.error ParseErr.noParse) :=
  ⟨by decide, by decide⟩

/-- C1, amended.  Round-tripping through the default-mode rendering
returns exactly the original term on the disambiguator-free terms the
repository's own tests exercise: right- and left-nested `Times`, the
mixed `Plus`/`Times` term, `Pow` with a bracketed right operand, a bare
identifier, and a binding form over undecorated names. -/
theorem C1_roundtrip :
    parse1 (Tm.str le1 (Tm.Times Tm.Top (Tm.Times Tm.Top Tm.Top)) none "bot" "bot").data
      = some (Except.ok (Tm.Times Tm.Top (Tm.Times Tm.Top Tm.Top)))
    ∧ parse1 (Tm.str le1 (Tm.Times (Tm.Times Tm.Top Tm.Top) Tm.Top) none "bot" "bot").data
      = some (Except.ok (Tm.Times (Tm.Times Tm.Top Tm.Top) Tm.Top))
    ∧ parse1 (Tm.str le1 (Tm.Plus (Tm.Times Tm.Top Tm.Top) Tm.Top) none "bot" "bot").data
      = some (Except.ok (Tm.Plus (Tm.Times Tm.Top Tm.Top) Tm.Top))
    ∧ parse1 (Tm.str le1 (Tm.Pow Tm.Top (Tm.Plus Tm.Top Tm.Top)) none "bot" "bot").data
      = some (Except.ok (Tm.Pow Tm.Top (Tm.Plus Tm.Top Tm.Top)))
    ∧ parse1 (Tm.str le1 (Tm.V ⟨"ab", none⟩) none "bot" "bot").data
      = some (Except.ok (Tm.V ⟨"ab", none⟩))
    ∧ parse1 (Tm.str le1 (Tm.F ⟨"x", none⟩ (Tm.V ⟨"x", none⟩)) none "bot" "bot").data
      = some (Except.ok (Tm.F ⟨"x", none⟩ (Tm.V ⟨"x", none⟩))) :=
  ⟨by decide, by decide, by decide, by decide, by decide, by decide⟩

/-- C2, counterexample.  In the bracketed case the code does not reset
every field's incoming bounds to bottom: rendering
`Times(Top, Plus(Top, Top))` with incoming bounds `top, top` (which forces
bracketing) gives `"(1*(1+1))"` — the second field keeps the literal's
exit cursor `Times.times` as its left bound, so the inner `Plus` is
bracketed — while the claim's description, which renders every field at
`bot, bot`, gives `"(1*1+1)"`. -/
theorem C2_counterexample :
    Tm.str le1 (Tm.Times Tm.Top (Tm.Plus Tm.Top Tm.Top)) none "top" "top" = "(1*(1+1))"
    ∧ specRenderC2 le1 (Tm.Times Tm.Top (Tm.Plus Tm.Top Tm.Top)) none "top" "top" = "(1*1+1)" :=
  ⟨by decide, by decide⟩

/-- C2, amended.  The renderer omits brackets for a node exactly when
`le inLeft entry && le inRight exitLast`; in the unbracketed case field
`fi` gets bounds (exit of the previous annotation, or the entry token for
the first; its own exit token); in the bracketed case only the first
annotation's left bound and the last annotation's right bound are reset to
bottom, the in-between bounds are kept, and the concatenation is wrapped in
the kind's bracketer (parenthesize by default).  This holds for every
term, mode, incoming bound pair, and precedence query. -/
theorem C2_bracketing (le : String → String → Bool) (t : Tm) (mode : Mode) (l r : String) :
    Tm.str le t mode l r = amendRender le t mode l r :=
  str_eq_amendRender_aux le t mode l r

/-- C3.  For every input string and every candidate term surviving
construction (an element of the derivation set for the stripped input,
with construction-rejected trees already excluded), the disambiguator
keeps the candidate — `reducible_to` on the stripped input and the
stripped default-mode rendering returns `True` — if and only if the
rendering is obtainable from the input by deleting a subsequence
consisting solely of parenthesis characters.  A candidate's rendering
always shares the input's non-parenthesis character sequence, and under
that invariant the greedy scan is sound as well as complete for the
paren-deletion relation. -/
theorem C3_keep_iff (s : List Char) (v : Tm)
    (hv : v ∈ derive1 ((strip s).length + 1) (strip s)) :
    (reducible_to (strip s) (strip (Tm.str le1 v none "bot" "bot").data) = some true
     ↔ specReduces (strip s) (strip (Tm.str le1 v none "bot" "bot").data) = true) := by
  apply reducible_iff_spec_of_inv
  rw [nonPar_strip, nonPar_strip]
  have h2 : core ((Tm.str le1 v none "bot" "bot").data) = core v.toks := by
    rw [str_eq_amendRender_aux]
    exact core_amend_eq_toks le1 v "bot" "bot"
  rw [h2]
  rw [toks_core_of_derive1 _ _ _ hv, core_strip]

/-- C3, witness: the candidate `Plus(Top, Top)` for input `"(1)+1"` — its
rendering `"1+1"` is kept, and is indeed a paren-deletion of the input. -/
theorem C3_witness :
    (Tm.Plus Tm.Top Tm.Top) ∈ derive1 ((strip "(1)+1".data).length + 1) (strip "(1)+1".data)
    ∧ (reducible_to (strip "(1)+1".data)
        (strip (Tm.str le1 (Tm.Plus Tm.Top Tm.Top) none "bot" "bot").data) = some true
       ↔ specReduces (strip "(1)+1".data)
        (strip (Tm.str le1 (Tm.Plus Tm.Top Tm.Top) none "bot" "bot").data) = true) :=
  ⟨by decide, C3_keep_iff "(1)+1".data (Tm.Plus Tm.Top Tm.Top) (by decide)⟩

/-- C4, counterexample.  Parsing is not limited to the two parse-error
kinds: on input `"1*(1)+1"` the candidate `Times(Top, Plus(Top, Top))`
(canonical rendering `"1*(1+1)"`) drives the `reducible_to` scan past the
end of the input, raising `IndexError` out of `parses` — modelled as
`none`, distinct from both `NoParse` and `AmbiguousParse`. -/
theorem C4_counterexample :
    parses1 "1*(1)+1".data = none ∧ parse1 "1*(1)+1".data = none :=
  ⟨by decide, by decide⟩

/-- C4, amended.  Whenever the candidate checks complete without an
exception, `parse` returns the sole survivor when exactly one survives,
fails with `NoParse` when zero survive, and fails with `AmbiguousParse`
carrying the survivor list when two or more survive — it never silently
picks one of several. -/
theorem C4_trichotomy (s : List Char) (l : List Tm) (h : parses1 s = some l) :
    (l = [] → parse1 s = some (Except.error ParseErr.noParse))
    ∧ (∀ v, l = [v] → parse1 s = some (Except.ok v))
    ∧ (2 ≤ l.length → parse1 s = some (Except.error (ParseErr.ambiguous l))) := by
  refine ⟨?_, ?_, ?_⟩
  · intro hl; rw [parse1, h, hl]; rfl
  · intro v hl; rw [parse1, h, hl]; rfl
  · intro hl
    rw [parse1, h]
    match l, hl with
    | v1 :: v2 :: rest, _ => rfl

/-- C4, witness: on `"1+1"` the survivor list is `[Plus(Top, Top)]` and
parse returns it. -/
theorem C4_witness :
    parse1 "1+1".data = some (Except.ok (Tm.Plus Tm.Top Tm.Top)) :=
  (C4_trichotomy "1+1".data [Tm.Plus Tm.Top Tm.Top] (by decide)).2.1 _ rfl

/-- C5.  Substitution is capture-avoiding: `F.subst` always freshens the
bound name before descending, so when a single-entry substitution map
sends `y` to a replacement `r` containing the free name `Fn` — even one
whose display tag collides with the binder's tag — and `y` occurs free in
the binder `F x e`, then `Fn` is still free in the result.  The
boundedness hypotheses state the process-wide counter invariant: every
name already in the term or the replacement was created before the
current counter value `c`. -/
theorem C5_no_capture (x y Fn : Name) (e r : Tm) (c : Nat)
    (hb : Tm.bounded c (Tm.F x e) = true) (hr : Tm.bounded c r = true)
    (hFn : Fn ∈ r.fvs) (hy : y ∈ (Tm.F x e).fvs) :
    Fn ∈ ((Tm.F x e).subst [(y, r)] c).1.fvs := by
  have hσ : ∀ z r2, lookupN [(y, r)] z = some r2 → Tm.bounded c r2 = true := by
    intro z r2 h
    rw [lookupN] at h
    by_cases hyz : y = z
    · rw [if_pos hyz] at h
      cases h
      exact hr
    · rw [if_neg hyz] at h
      exact absurd h (by simp [lookupN])
  rw [fvs_subst hb hσ]
  refine Finset.mem_biUnion.mpr ⟨y, hy, ?_⟩
  have himg : substImage [(y, r)] y = r.fvs := by
    rw [substImage, lookupN, if_pos rfl]
  rw [himg]
  exact hFn

/-- C5, witness: substituting `V(Name('y'))` for the free `z` under the
binder `F(Name('y', 0), V(z))` — whose display tag collides with the free
name `y` — keeps `y` free: the bound name is freshened to `y@1`. -/
theorem C5_witness :
    Tm.bounded 1 (Tm.F ⟨"y", some 0⟩ (Tm.V ⟨"z", none⟩)) = true
    ∧ Tm.bounded 1 (Tm.V ⟨"y", none⟩) = true
    ∧ (⟨"y", none⟩ : Name) ∈ (Tm.V ⟨"y", none⟩).fvs
    ∧ (⟨"z", none⟩ : Name) ∈ (Tm.F ⟨"y", some 0⟩ (Tm.V ⟨"z", none⟩)).fvs
    ∧ (⟨"y", none⟩ : Name) ∈
        ((Tm.F ⟨"y", some 0⟩ (Tm.V ⟨"z", none⟩)).subst
          [(⟨"z", none⟩, Tm.V ⟨"y", none⟩)] 1).1.fvs :=
  ⟨by decide, by decide, by decide, by decide,
   C5_no_capture ⟨"y", some 0⟩ ⟨"z", none⟩ ⟨"y", none⟩ (Tm.V ⟨"z", none⟩)
     (Tm.V ⟨"y", none⟩) 1 (by decide) (by decide) (by decide) (by decide)⟩

/-- C6, counterexample.  Term equality with an empty renaming is neither
symmetric nor transitive: with `s = F(x, V(y))`, `t = F(y, V(y))`,
`u = F(z, V(z))` (all built over undecorated names, as the parser builds
them for `"x. y"`, `"y. y"`, `"z. z"`), `s == t` and `t == u` hold while
`t == s` and `s == u` fail — the accumulated renaming is applied to the
left side only. -/
theorem C6_counterexample :
    eqTm (Tm.F ⟨"x", none⟩ (Tm.V ⟨"y", none⟩)) (Tm.F ⟨"y", none⟩ (Tm.V ⟨"y", none⟩)) [] = some true
    ∧ eqTm (Tm.F ⟨"y", none⟩ (Tm.V ⟨"y", none⟩)) (Tm.F ⟨"x", none⟩ (Tm.V ⟨"y", none⟩)) [] = some false
    ∧ eqTm (Tm.F ⟨"y", none⟩ (Tm.V ⟨"y", none⟩)) (Tm.F ⟨"z", none⟩ (Tm.V ⟨"z", none⟩)) [] = some true
    ∧ eqTm (Tm.F ⟨"x", none⟩ (Tm.V ⟨"y", none⟩)) (Tm.F ⟨"z", none⟩ (Tm.V ⟨"z", none⟩)) [] = some false :=
  ⟨by decide, by decide, by decide, by decide⟩

/-- C6, amended.  Term equality with an empty initial renaming is
reflexive on every term; symmetry and transitivity fail in general (see
the counterexample terms, which are constructible by the parser). -/
theorem C6_refl (t : Tm) : eqTm t t [] = some true :=
  eqTm_refl_aux t [] (by intro z w h; exact absurd h (by simp [lookupN]))

/-- C7, counterexample.  Equality on terms of different mixfix kinds does
not raise `InvalidConstruction` (no such failure exists in the code): it
is silently returned as `False`. -/
theorem C7_counterexample :
    eqTm Tm.Top (Tm.Times Tm.Top Tm.Top) [] = some false :=
  by decide

/-- C7, amended.  Equality on terms of different mixfix kinds returns
`False` without raising; comparing a variable occurrence against a mixfix
node raises `AttributeError` (the node has no `x` attribute), not
`InvalidConstruction`. -/
theorem C7_mismatch (s t : Tm) (ren : List (Name × Name))
    (hs : s.isMixfixNode = true) (ht : t.isMixfixNode = true) (hk : s.kindIdx ≠ t.kindIdx) :
    eqTm s t ren = some false
    ∧ ∀ (x : Name) (u : Tm), u.isMixfixNode = true → eqTm (Tm.V x) u ren = none := by
  constructor
  · cases s <;> cases t <;> simp_all [eqTm, Tm.isMixfixNode, Tm.kindIdx]
  · intro x u hu
    cases u <;> simp_all [eqTm, Tm.isMixfixNode]

/-- C7, witness at concrete mismatched kinds. -/
theorem C7_witness :
    eqTm (Tm.Plus Tm.Top Tm.Top) (Tm.Times Tm.Top Tm.Top) [] = some false
    ∧ eqTm (Tm.V ⟨"a", none⟩) (Tm.Times Tm.Top Tm.Top) [] = none :=
  ⟨(C7_mismatch (Tm.Plus Tm.Top Tm.Top) (Tm.Times Tm.Top Tm.Top) []
      (by decide) (by decide) (by decide)).1,
   (C7_mismatch (Tm.Plus Tm.Top Tm.Top) (Tm.Times Tm.Top Tm.Top) []
      (by decide) (by decide) (by decide)).2 ⟨"a", none⟩ (Tm.Times Tm.Top Tm.Top) (by decide)⟩

/-- C8, counterexample.  The reserved set of a binder is not only its
ancestors' reserved names united with its own free names: `in_use` is
mutated in place, so the free names of binders in earlier sibling subtrees
leak in.  In `Eq(Forall(F(z@7, V(x))), Forall(F(x@8, V(w))))` the first
field's binder adds the free `x` to the shared set, so the second binder
is renamed to `x@0` where the spec's reserved set (ancestors plus own free
names, here `{w}`) would allow plain `x`. -/
theorem C8_counterexample :
    (Tm.simple_names (Tm.Eq (Tm.Forall (Tm.F ⟨"z", some 7⟩ (Tm.V ⟨"x", none⟩)))
        (Tm.Forall (Tm.F ⟨"x", some 8⟩ (Tm.V ⟨"w", none⟩)))) [] ∅).1
      = Tm.Eq (Tm.Forall (Tm.F ⟨"z", none⟩ (Tm.V ⟨"x", none⟩)))
          (Tm.Forall (Tm.F ⟨"x", some 0⟩ (Tm.V ⟨"w", none⟩)))
    ∧ specSimpleNames (Tm.Eq (Tm.Forall (Tm.F ⟨"z", some 7⟩ (Tm.V ⟨"x", none⟩)))
        (Tm.Forall (Tm.F ⟨"x", some 8⟩ (Tm.V ⟨"w", none⟩)))) [] ∅
      = Tm.Eq (Tm.Forall (Tm.F ⟨"z", none⟩ (Tm.V ⟨"x", none⟩)))
          (Tm.Forall (Tm.F ⟨"x", none⟩ (Tm.V ⟨"w", none⟩))) :=
  ⟨by decide, by decide⟩

/-- C8, amended.  Each binder is assigned `pickName` of its tag and the
in-use set reaching it (incoming reserved names — including leaked
sibling-binder free names — united with this binder's free names):
the choice avoids the set, keeps the tag, and is minimal in the order
`{none, 0, 1, 2, ...}`.  The concrete example holds: the closed term
`Forall(x. Exists(y. Eq(x, y)))` has no free names and renders as
`"∀ x. ∃ y. x = y"` after `simple_names`. -/
theorem C8_simple_names :
    (∀ (tag : String) (used : Finset Name),
      pickName tag used ∉ used
      ∧ (pickName tag used).x = tag
      ∧ (((pickName tag used).n = none ∧ (⟨tag, none⟩ : Name) ∉ used)
         ∨ (∃ k, (pickName tag used).n = some k ∧ (⟨tag, none⟩ : Name) ∈ used
             ∧ (⟨tag, some k⟩ : Name) ∉ used ∧ ∀ m < k, (⟨tag, some m⟩ : Name) ∈ used)))
    ∧ (Tm.fvs (Tm.Forall (Tm.F ⟨"x", some 0⟩ (Tm.Exists (Tm.F ⟨"y", some 1⟩
        (Tm.Eq (Tm.V ⟨"x", some 0⟩) (Tm.V ⟨"y", some 1⟩)))))) = ∅)
    ∧ ((Tm.simple_names (Tm.Forall (Tm.F ⟨"x", some 0⟩ (Tm.Exists (Tm.F ⟨"y", some 1⟩
        (Tm.Eq (Tm.V ⟨"x", some 0⟩) (Tm.V ⟨"y", some 1⟩)))))) [] ∅).1.str le2
          (some "pretty") "bot" "bot"
      = "∀ x. ∃ y. x = y") :=
  ⟨fun tag used => ⟨pickName_avoids tag used, pickName_tag tag used, pickName_minimal tag used⟩,
   by decide, by decide⟩

/-- C8, witness: with `x` (undecorated) already reserved, the picked name
for tag `x` is not the reserved one. -/
theorem C8_witness :
    pickName "x" {(⟨"x", none⟩ : Name)} ∉ ({(⟨"x", none⟩ : Name)} : Finset Name) :=
  (C8_simple_names.1 "x" {(⟨"x", none⟩ : Name)}).1

/-- C9.  With the example-1 declarations (`Top` printing `1`;
`Times`/`Plus`/`Pow` right-associative; `Times` above `Plus` and `Plus`
above `Pow` on the left only), the pretty-mode renderings are as claimed
and `parse("1 -> 1 + 1")` fails: both candidate readings are rejected by
the canonical-rendering check, so no candidate survives. -/
theorem C9_examples :
    Tm.str le1 (Tm.Times Tm.Top (Tm.Times Tm.Top Tm.Top)) (some "pretty") "bot" "bot" = "1 * 1 * 1"
    ∧ Tm.str le1 (Tm.Times (Tm.Times Tm.Top Tm.Top) Tm.Top) (some "pretty") "bot" "bot" = "(1 * 1) * 1"
    ∧ Tm.str le1 (Tm.Plus (Tm.Times Tm.Top Tm.Top) Tm.Top) (some "pretty") "bot" "bot" = "1 * 1 + 1"
    ∧ Tm.str le1 (Tm.Pow Tm.Top (Tm.Plus Tm.Top Tm.Top)) (some "pretty") "bot" "bot" = "1 -> (1 + 1)"
    ∧ parse1 "1 -> 1 + 1".data = some (Except.error ParseErr.noParse) :=
  ⟨by decide, by decide, by decide, by decide, by decide⟩

/-- C10, counterexample.  `reducible_to` can raise: on `s = "a"`,
`t = "aa"` both early character-set tests pass, the scan matches the
single `a`, and then reads `s[1]` with the target unfinished —
`IndexError`, modelled as `none`. -/
theorem C10_counterexample : reducible_to "a".data "aa".data = none :=
  by decide

/-- C10, amended.  The check always terminates (each loop step returns or
advances `i`); it returns a boolean without raising whenever the candidate
rendering is a subsequence of the input — in particular in the intended
use where the rendering is the input minus parentheses — but can raise
`IndexError` when the scan exhausts the input with the rendering
unfinished. -/
theorem C10_total_on_subsequences (s t : List Char) (h : t.Sublist s) :
    reducible_to s t ≠ none :=
  reducible_ne_none_of_sublist h

/-- C10, witness at a concrete subsequence pair. -/
theorem C10_witness : reducible_to "(a)b".data "ab".data ≠ none :=
  C10_total_on_subsequences "(a)b".data "ab".data (by decide)
